import Mathlib

/-!
Verification of the silence/speech interval engine of the `antilector_bot`
repository.  Times are modelled as exact rationals (the source uses Python
floats but performs only field arithmetic and comparisons on them).
-/

namespace AntilectorSpec

/-- A time span `[start, stop)` tagged silent or audible.
Embeds `Interval` from `libs/unsilence/intervals/interval.py`; the source
field `end` is a Lean keyword and is rendered here as `stop`. -/
structure Interval where
  start : ℚ
  stop : ℚ
  is_silent : Bool
  deriving DecidableEq, Repr

/-- `Interval.duration`: `end - start`, as in the source property. -/
def Interval.duration (i : Interval) : ℚ := i.stop - i.start

/-- Embeds `Intervals` from `libs/unsilence/intervals/intervals.py`:
the primary interval list plus the derived "without breaks" list. -/
structure Intervals where
  intervals : List Interval
  intervals_without_breaks : List Interval
  deriving DecidableEq, Repr

/-- `intervals_or` from `tools/video_processing/vad/vad_unsilence.py`:
two-pointer sweep over the two interval lists, emitting one interval per
overlapping pair with `is_silent = interval1.is_silent or interval2.is_silent`.
The inner Python `while` advances `idx2` (here: consumes the head of the
second list); `return result` on `idx2` exhaustion aborts the whole loop. -/
def intervals_or : List Interval → List Interval → List Interval
  | [], _ => []
  | _ :: _, [] => []
  | i1 :: rest1, i2 :: rest2 =>
    if i2.start > i1.stop then
      intervals_or rest1 (i2 :: rest2)
    else
      let merged : Interval :=
        ⟨max i1.start i2.start, min i1.stop i2.stop, i1.is_silent || i2.is_silent⟩
      if i2.stop > i1.stop then
        merged :: intervals_or rest1 (i2 :: rest2)
      else
        merged :: intervals_or (i1 :: rest1) rest2
termination_by l1 l2 => l1.length + l2.length

/-- `FFMPEG_MIN_TEMPO` from `lib/unsilence/render_media/render_filter.py`. -/
def FFMPEG_MIN_TEMPO : ℚ := 1/2

/-- `FFMPEG_MAX_TEMPO` from `lib/unsilence/render_media/render_filter.py`. -/
def FFMPEG_MAX_TEMPO : ℚ := 100

/-- `clamp_speed` from `lib/unsilence/render_media/render_filter.py`:
replace `speed` by `duration / minimum_interval_duration` whenever
`duration / speed < minimum_interval_duration`, then clamp into the
ffmpeg tempo range. -/
def clamp_speed (duration speed minimum_interval_duration : ℚ) : ℚ :=
  let speed :=
    if duration / speed < minimum_interval_duration then
      duration / minimum_interval_duration
    else speed
  if speed < FFMPEG_MIN_TEMPO then FFMPEG_MIN_TEMPO
  else if speed > FFMPEG_MAX_TEMPO then FFMPEG_MAX_TEMPO
  else speed

/-- `IntervalGroupRenderTask.start_timestamp` from
`libs/unsilence_fast/fast_render_task.py`: the start of the group's first
interval (a group is modelled by the list of its tasks' intervals). -/
def start_timestamp (g : List Interval) : ℚ := (g.headD ⟨0, 0, false⟩).start

/-- The grouping loop of `FastMediaRenderer._create_tasks` from
`libs/unsilence_fast/fast_media_renderer.py`: walk the "without breaks"
intervals, appending each to the current group; first start a new group when
the current group `has_tasks()` and either the candidate interval's `end`
minus the group's `start_timestamp` exceeds `max_seconds_buffer` or the group
already holds `max_group_size` intervals.  After the walk the current group
is appended when non-empty. -/
def create_tasks_go (max_seconds_buffer : ℚ) (max_group_size : ℕ) :
    List Interval → List Interval → List (List Interval)
  | current, [] => if current ≠ [] then [current] else []
  | current, i :: rest =>
    if current ≠ [] ∧
        (i.stop - start_timestamp current > max_seconds_buffer ∨
          current.length ≥ max_group_size) then
      current :: create_tasks_go max_seconds_buffer max_group_size [i] rest
    else
      create_tasks_go max_seconds_buffer max_group_size (current ++ [i]) rest

/-- `FastMediaRenderer._create_tasks`, starting from an empty current group. -/
def create_tasks (max_seconds_buffer : ℚ) (max_group_size : ℕ)
    (intervals_without_breaks : List Interval) : List (List Interval) :=
  create_tasks_go max_seconds_buffer max_group_size [] intervals_without_breaks

/-- The `silence_upper_threshold` argument of `Intervals.optimize`: a Python
`float | None`, where both `None` and `float("inf")` disable break removal. -/
inductive SilenceUpperThreshold
  | noneValue
  | infValue
  | finite (q : ℚ)
  deriving DecidableEq, Repr

/-- `Intervals.__remove_breaks` from `libs/unsilence/intervals/intervals.py`:
with threshold `None` or `float("inf")` the "without breaks" list becomes the
primary list; otherwise every silent interval whose duration is ≥ the
threshold is skipped (`continue`).  The primary list is left untouched. -/
def remove_breaks (s : Intervals) : SilenceUpperThreshold → Intervals
  | .noneValue => ⟨s.intervals, s.intervals⟩
  | .infValue => ⟨s.intervals, s.intervals⟩
  | .finite q =>
    ⟨s.intervals,
      s.intervals.filter (fun i => !(i.is_silent && decide (q ≤ i.duration)))⟩

/-- `Interval.enlarge_audible_interval` from
`libs/unsilence/intervals/interval.py`: errors when `stretch_time ≥ duration`
(before looking at the first/last flags); otherwise shifts the boundaries by
`stretch_time_part = ±stretch_time/2` (negative sign for silent intervals),
skipping the `start` boundary for the first interval and the `end` boundary
for the last one.  The Python method mutates `self`; here the updated
interval is returned. -/
def enlarge_audible_interval (i : Interval) (stretch_time : ℚ)
    (is_start_interval is_end_interval : Bool) : Except String Interval :=
  if stretch_time ≥ i.duration then
    .error "Stretch time to large, please choose smaller size"
  else
    let stretch_time_part := (if i.is_silent then -1 else 1) * stretch_time / 2
    let newStart := if !is_start_interval then i.start - stretch_time_part else i.start
    let newStop := if !is_end_interval then i.stop + stretch_time_part else i.stop
    .ok ⟨newStart, newStop, i.is_silent⟩

/-- C1 counterexample: for the single-interval Timelines `[0,10)` with A
silent and B audible, the merged interval's `is_silent` is `true`, not
`false` as the claim states (`intervals_or` computes the inclusive OR of the
two `is_silent` flags). -/
theorem intervals_or_claimed_value_false :
    ¬ (intervals_or [⟨0, 10, true⟩] [⟨0, 10, false⟩]
        = [⟨0, 10, false⟩]) := by
  norm_num [intervals_or]

/-- C1 (amended): for every pair of single-interval Timelines covering
`[0,10)`, the merged Timeline is the single interval `[0,10)` whose
`is_silent` is the inclusive OR of the two flags; hence A silent / B audible
gives `is_silent = true` (a point is audible only if both detectors agree it
is audible), and both silent gives `true`. -/
theorem intervals_or_single_interval_semantics (sA sB : Bool) :
    intervals_or [⟨0, 10, sA⟩] [⟨0, 10, sB⟩] = [⟨0, 10, sA || sB⟩] := by
  norm_num [intervals_or]

/-- C4: for positive duration, speed and minimum interval duration,
`clamp_speed` stays inside `[FFMPEG_MIN_TEMPO, FFMPEG_MAX_TEMPO] = [1/2, 100]`,
and `clamp_speed 1 10 (1/2) = 2` (the speed is first replaced by
`duration / minimum_interval_duration`), not `10`. -/
theorem clamp_speed_in_range (duration speed m : ℚ)
    (hd : 0 < duration) (hs : 0 < speed) (hm : 0 < m) :
    (FFMPEG_MIN_TEMPO ≤ clamp_speed duration speed m ∧
      clamp_speed duration speed m ≤ FFMPEG_MAX_TEMPO) ∧
    clamp_speed 1 10 (1/2) = 2 := by
  constructor
  · simp only [clamp_speed, FFMPEG_MIN_TEMPO, FFMPEG_MAX_TEMPO]
    split_ifs with h1 h2 h3 h4 h5 h6 <;> constructor <;> linarith
  · norm_num [clamp_speed, FFMPEG_MIN_TEMPO, FFMPEG_MAX_TEMPO]

/-- Witness for C4 at `duration = 1, speed = 10, minimum = 1/2`. -/
theorem clamp_speed_in_range_witness :
    (FFMPEG_MIN_TEMPO ≤ clamp_speed 1 10 (1/2) ∧
      clamp_speed 1 10 (1/2) ≤ FFMPEG_MAX_TEMPO) ∧
    clamp_speed 1 10 (1/2) = 2 :=
  clamp_speed_in_range 1 10 (1/2) (by norm_num) (by norm_num) (by norm_num)

/-- Every group produced by the grouping loop is non-empty, whatever the
current accumulator is. -/
theorem create_tasks_go_ne_nil (msb : ℚ) (mgs : ℕ) :
    ∀ (l current : List Interval), ∀ g ∈ create_tasks_go msb mgs current l, g ≠ [] := by
  intro l
  induction l with
  | nil =>
    intro current g hg
    simp only [create_tasks_go] at hg
    split at hg <;> simp_all
  | cons i rest ih =>
    intro current g hg
    simp only [create_tasks_go] at hg
    split at hg
    · rename_i h
      rcases List.mem_cons.mp hg with rfl | hg'
      · exact h.1
      · exact ih [i] g hg'
    · exact ih (current ++ [i]) g hg

/-- C2: the batch planner of `FastMediaRenderer._create_tasks`.
(1) For `seconds_buffer = 5` and intervals `[0,2), [2,4), [4,7)` the third
interval starts a new batch (span `7 - 0 > 5`), so it does not share a batch
with the first two.  (2) Every produced batch is non-empty.  (3) Walking one
interval with a non-empty current batch starts a new batch exactly when the
interval's `end` minus the batch's `start_timestamp` exceeds the seconds
buffer or the batch already holds `max_group_size` intervals. -/
theorem create_tasks_spec :
    (create_tasks 5 25 [⟨0, 2, false⟩, ⟨2, 4, false⟩, ⟨4, 7, false⟩]
      = [[⟨0, 2, false⟩, ⟨2, 4, false⟩], [⟨4, 7, false⟩]]) ∧
    (∀ (msb : ℚ) (mgs : ℕ) (l : List Interval),
      ∀ g ∈ create_tasks msb mgs l, g ≠ []) ∧
    (∀ (msb : ℚ) (mgs : ℕ) (current : List Interval) (i : Interval)
        (rest : List Interval), current ≠ [] →
      create_tasks_go msb mgs current (i :: rest) =
        if i.stop - start_timestamp current > msb ∨ current.length ≥ mgs then
          current :: create_tasks_go msb mgs [i] rest
        else
          create_tasks_go msb mgs (current ++ [i]) rest) := by
  refine ⟨?_, ?_, ?_⟩
  · norm_num [create_tasks, create_tasks_go, start_timestamp]
    intro hab
    exact absurd hab (by simp)
  · intro msb mgs l g hg
    exact create_tasks_go_ne_nil msb mgs l [] g hg
  · intro msb mgs current i rest h
    by_cases hc : i.stop - start_timestamp current > msb ∨ current.length ≥ mgs
    · rw [if_pos hc]
      simp only [create_tasks_go]
      rw [if_pos ⟨h, hc⟩]
    · rw [if_neg hc]
      simp only [create_tasks_go]
      rw [if_neg (by exact fun hh => hc hh.2)]

/-- Witness for C2: the non-emptiness part at the concrete batch plan above,
and the batching criterion at a concrete non-empty current batch. -/
theorem create_tasks_spec_witness :
    ([⟨(4 : ℚ), 7, false⟩] ≠ ([] : List Interval)) ∧
    (([⟨(0 : ℚ), 2, false⟩] : List Interval) ≠ [] ∧
      create_tasks_go 5 25 [⟨0, 2, false⟩] [⟨4, 7, false⟩] =
        if (⟨(4 : ℚ), 7, false⟩ : Interval).stop - start_timestamp [⟨0, 2, false⟩] > 5 ∨
            ([⟨(0 : ℚ), 2, false⟩] : List Interval).length ≥ 25 then
          [⟨0, 2, false⟩] :: create_tasks_go 5 25 [⟨4, 7, false⟩] []
        else
          create_tasks_go 5 25 ([⟨0, 2, false⟩] ++ [⟨4, 7, false⟩]) []) :=
  ⟨create_tasks_spec.2.1 5 25 [⟨0, 2, false⟩, ⟨2, 4, false⟩, ⟨4, 7, false⟩]
      [⟨4, 7, false⟩] (by rw [create_tasks_spec.1]; simp),
    by simp,
    create_tasks_spec.2.2 5 25 [⟨0, 2, false⟩] ⟨4, 7, false⟩ [] (by simp)⟩

/-- C5: `Intervals.__remove_breaks` never modifies the primary list; with a
finite threshold the "without breaks" view is the primary list filtered of
exactly the silent intervals of duration ≥ the threshold (hence an
order-preserving subsequence of the primary list); with threshold `None` or
infinite it is the primary list itself. -/
theorem remove_breaks_spec (s : Intervals) (q : ℚ) :
    (∀ t, (remove_breaks s t).intervals = s.intervals) ∧
    ((remove_breaks s (.finite q)).intervals_without_breaks
      = s.intervals.filter (fun i => !(i.is_silent && decide (q ≤ i.duration)))) ∧
    ((remove_breaks s (.finite q)).intervals_without_breaks.Sublist s.intervals) ∧
    ((remove_breaks s .noneValue).intervals_without_breaks = s.intervals) ∧
    ((remove_breaks s .infValue).intervals_without_breaks = s.intervals) := by
  refine ⟨fun t => ?_, rfl, List.filter_sublist s.intervals, rfl, rfl⟩
  cases t <;> rfl

/-- C6: `enlarge_audible_interval` errors exactly when
`stretch_time ≥ duration`, regardless of the first/last flags; otherwise, for
an interval that is neither first nor last, a silent interval loses exactly
`stretch_time` of duration and an audible one gains exactly `stretch_time`,
split as `stretch_time/2` on each of the two boundaries. -/
theorem enlarge_audible_interval_spec (i : Interval) (st : ℚ) (s e : Bool) :
    ((∃ msg, enlarge_audible_interval i st s e = .error msg) ↔ st ≥ i.duration) ∧
    (st < i.duration → i.is_silent = true →
      enlarge_audible_interval i st false false
          = .ok ⟨i.start + st / 2, i.stop - st / 2, true⟩ ∧
      (⟨i.start + st / 2, i.stop - st / 2, true⟩ : Interval).duration
          = i.duration - st) ∧
    (st < i.duration → i.is_silent = false →
      enlarge_audible_interval i st false false
          = .ok ⟨i.start - st / 2, i.stop + st / 2, false⟩ ∧
      (⟨i.start - st / 2, i.stop + st / 2, false⟩ : Interval).duration
          = i.duration + st) := by
  refine ⟨?_, ?_, ?_⟩
  · constructor
    · rintro ⟨msg, hmsg⟩
      by_contra h
      simp only [enlarge_audible_interval, if_neg h] at hmsg
      exact Except.noConfusion hmsg
    · intro h
      exact ⟨"Stretch time to large, please choose smaller size",
        by simp only [enlarge_audible_interval, if_pos h]⟩
  · intro h hsil
    have h' : ¬ st ≥ i.duration := not_le.mpr h
    refine ⟨?_, by simp only [Interval.duration]; ring⟩
    simp [enlarge_audible_interval, if_neg h', hsil]
    try constructor <;> try ring
  · intro h hsil
    have h' : ¬ st ≥ i.duration := not_le.mpr h
    refine ⟨?_, by simp only [Interval.duration]; ring⟩
    simp [enlarge_audible_interval, if_neg h', hsil]
    try constructor <;> try ring

/-- Witness for C6 at the silent interval `[0,2)` with `stretch_time = 1`. -/
theorem enlarge_audible_interval_spec_witness :
    ((1 : ℚ) < (⟨0, 2, true⟩ : Interval).duration ∧
      (⟨(0 : ℚ), 2, true⟩ : Interval).is_silent = true) ∧
    (enlarge_audible_interval ⟨0, 2, true⟩ 1 false false
        = .ok ⟨(0 : ℚ) + 1 / 2, 2 - 1 / 2, true⟩ ∧
      (⟨(0 : ℚ) + 1 / 2, 2 - 1 / 2, true⟩ : Interval).duration
        = (⟨(0 : ℚ), 2, true⟩ : Interval).duration - 1) :=
  ⟨⟨by norm_num [Interval.duration], rfl⟩,
    (enlarge_audible_interval_spec ⟨0, 2, true⟩ 1 false false).2.1
      (by norm_num [Interval.duration]) rfl⟩

/-- The accumulator loop of `Intervals.__combine_intervals` from
`libs/unsilence/intervals/intervals.py`.  The Python accumulator is an
`Interval(is_silent=None)`; its class is modelled as `Option Bool`
(`none` = Python `None`), and `cs`/`ce` are its `start`/`end`.  While the
class is `None` the Python test `current_interval.is_silent ==
interval.is_silent` is `False` (`None` never equals a `bool`), so the merge
condition degenerates to `interval.duration <= short_interval_threshold`,
and a non-short interval takes the `elif` branch that sets the class; once
the class is a `bool` the `elif` is unreachable and a failed condition
flushes the accumulator.  On exhaustion a still-`None` class becomes `False`
and the accumulator is appended. -/
def combine_go (thr : ℚ) : ℚ → ℚ → Option Bool → List Interval → List Interval
  | cs, ce, sil, [] => [⟨cs, ce, sil.getD false⟩]
  | cs, _, none, i :: rest =>
    if i.duration ≤ thr then combine_go thr cs i.stop none rest
    else combine_go thr cs i.stop (some i.is_silent) rest
  | cs, ce, some b, i :: rest =>
    if i.duration ≤ thr ∨ b = i.is_silent then combine_go thr cs i.stop (some b) rest
    else ⟨cs, ce, b⟩ :: combine_go thr i.start i.stop (some i.is_silent) rest

/-- `Intervals.__combine_intervals`: the accumulator starts as
`Interval(start=0, end=0, is_silent=None)`. -/
def combine_intervals (thr : ℚ) (l : List Interval) : List Interval :=
  combine_go thr 0 0 none l

/-- The primary-sequence contiguity invariant: the first interval starts at
`a` and each interval's `end` is the next interval's `start`. -/
def contiguousFrom : ℚ → List Interval → Prop
  | _, [] => True
  | a, i :: rest => i.start = a ∧ contiguousFrom i.stop rest

/-- No two adjacent intervals share an `is_silent` class. -/
def alternating (l : List Interval) : Prop :=
  List.Chain' (fun a b => a.is_silent ≠ b.is_silent) l

/-- Shape of the combine loop's output once the accumulator class is set:
the output is a non-empty contiguous alternating sequence starting at the
accumulator's start, its head keeps the accumulator's class, and every
emitted interval is longer than the threshold. -/
theorem combine_go_some_spec (thr : ℚ) :
    ∀ (rest : List Interval) (cs ce : ℚ) (b : Bool),
      contiguousFrom ce rest → (∀ i ∈ rest, i.start ≤ i.stop) →
      thr < ce - cs →
      (combine_go thr cs ce (some b) rest ≠ [] ∧
        (∀ j, (combine_go thr cs ce (some b) rest).head? = some j →
          j.is_silent = b) ∧
        contiguousFrom cs (combine_go thr cs ce (some b) rest) ∧
        alternating (combine_go thr cs ce (some b) rest) ∧
        ∀ x ∈ combine_go thr cs ce (some b) rest, thr < x.duration) := by
  intro rest
  induction rest with
  | nil =>
    intro cs ce b _ _ hacc
    refine ⟨by simp [combine_go], ?_, ⟨rfl, trivial⟩, ?_, ?_⟩
    · intro j hj
      simp [combine_go] at hj
      rw [← hj]
    · simp [alternating, combine_go]
    · intro x hx
      simp [combine_go] at hx
      rw [hx]
      simpa [Interval.duration] using hacc
  | cons i rest ih =>
    intro cs ce b hchain hnn hacc
    have hi_nn : i.start ≤ i.stop := hnn i (List.mem_cons_self i rest)
    by_cases hcond : i.duration ≤ thr ∨ b = i.is_silent
    · simp only [combine_go, if_pos hcond]
      exact ih cs i.stop b hchain.2 (fun j hj => hnn j (List.mem_cons_of_mem i hj))
        (by have := hchain.1; linarith)
    · have hd : ¬ i.duration ≤ thr := fun h => hcond (Or.inl h)
      have hb : b ≠ i.is_silent := fun h => hcond (Or.inr h)
      simp only [combine_go, if_neg hcond]
      have hstep : thr < i.stop - i.start := by
        simp only [Interval.duration] at hd
        linarith
      obtain ⟨hne', hhd', hcont', halt', hdur'⟩ :=
        ih i.start i.stop i.is_silent hchain.2
          (fun j hj => hnn j (List.mem_cons_of_mem i hj)) hstep
      refine ⟨List.cons_ne_nil _ _, ?_, ?_, ?_, ?_⟩
      · intro j hj
        simp only [List.head?_cons, Option.some.injEq] at hj
        rw [← hj]
      · exact ⟨rfl, by rw [← hchain.1]; exact hcont'⟩
      · refine List.chain'_cons'.mpr ⟨?_, halt'⟩
        intro y hy
        have := hhd' y hy
        simp only [this]
        exact hb
      · intro x hx
        rcases List.mem_cons.mp hx with rfl | hx'
        · simpa [Interval.duration] using hacc
        · exact hdur' x hx'

/-- Shape of the combine loop's output while the accumulator class is still
`None` and its start is `0`: the output is non-empty, contiguous from `0`,
alternating, and either all emitted intervals are longer than the threshold
or the output is one single audible interval starting at `0`. -/
theorem combine_go_none_spec (thr : ℚ) :
    ∀ (rest : List Interval) (ce : ℚ),
      contiguousFrom ce rest → (∀ i ∈ rest, i.start ≤ i.stop) → 0 ≤ ce →
      (combine_go thr 0 ce none rest ≠ [] ∧
        contiguousFrom 0 (combine_go thr 0 ce none rest) ∧
        alternating (combine_go thr 0 ce none rest) ∧
        ((∀ x ∈ combine_go thr 0 ce none rest, thr < x.duration) ∨
          ∃ E, combine_go thr 0 ce none rest = [⟨0, E, false⟩])) := by
  intro rest
  induction rest with
  | nil =>
    intro ce _ _ _
    exact ⟨by simp [combine_go], ⟨rfl, trivial⟩, by simp [alternating, combine_go],
      Or.inr ⟨ce, by simp [combine_go]⟩⟩
  | cons i rest ih =>
    intro ce hchain hnn hce
    have hi_nn : i.start ≤ i.stop := hnn i (List.mem_cons_self i rest)
    by_cases hd : i.duration ≤ thr
    · simp only [combine_go, if_pos hd]
      exact ih i.stop hchain.2 (fun j hj => hnn j (List.mem_cons_of_mem i hj))
        (by have := hchain.1; linarith)
    · simp only [combine_go, if_neg hd]
      have hstep : thr < i.stop - 0 := by
        simp only [Interval.duration] at hd
        have := hchain.1
        linarith
      obtain ⟨hne', _, hcont', halt', hdur'⟩ :=
        combine_go_some_spec thr rest 0 i.stop i.is_silent hchain.2
          (fun j hj => hnn j (List.mem_cons_of_mem i hj)) hstep
      exact ⟨hne', hcont', halt', Or.inl hdur'⟩

/-- An alternating sequence of intervals that are all longer than the
threshold is reproduced verbatim by the combine loop once seeded with its
head as the accumulator. -/
theorem combine_go_stable (thr : ℚ) :
    ∀ (rest : List Interval) (j : Interval),
      (∀ x ∈ j :: rest, thr < x.duration) →
      alternating (j :: rest) →
      combine_go thr j.start j.stop (some j.is_silent) rest = j :: rest := by
  intro rest
  induction rest with
  | nil =>
    intro j _ _
    simp [combine_go]
  | cons k rest ih =>
    intro j hdur halt
    have hdk : ¬ k.duration ≤ thr :=
      not_le.mpr (hdur k (List.mem_cons_of_mem j (List.mem_cons_self k rest)))
    have hbk : ¬ j.is_silent = k.is_silent :=
      (List.chain'_cons.mp halt).1
    have hcond : ¬ (k.duration ≤ thr ∨ j.is_silent = k.is_silent) := by
      rintro (h | h)
      exacts [hdk h, hbk h]
    simp only [combine_go, if_neg hcond]
    rw [ih k (fun x hx => hdur x (List.mem_cons_of_mem j hx))
      (List.chain'_cons.mp halt).2]

/-- Lists of the shape produced by one combine pass are fixed points of the
combine pass. -/
theorem combine_intervals_fix (thr : ℚ) (out : List Interval)
    (hne : out ≠ []) (hc : contiguousFrom 0 out) (halt : alternating out)
    (hd : (∀ x ∈ out, thr < x.duration) ∨ ∃ E, out = [⟨0, E, false⟩]) :
    combine_intervals thr out = out := by
  rcases hd with hall | ⟨E, rfl⟩
  · match out, hne with
    | j :: rest, _ =>
      have hdj : ¬ j.duration ≤ thr :=
        not_le.mpr (hall j (List.mem_cons_self j rest))
      simp only [combine_intervals, combine_go, if_neg hdj]
      rw [← hc.1]
      exact combine_go_stable thr rest j hall halt
  · simp only [combine_intervals, combine_go]
    by_cases hE : (⟨0, E, false⟩ : Interval).duration ≤ thr
    · rw [if_pos hE]
      simp [combine_go]
    · rw [if_neg hE]
      simp [combine_go]

/-- C3: the Combine pass is idempotent on every Timeline whose intervals are
contiguous starting at time `0` (with non-negative durations): a second
application with the same `short_interval_threshold` reproduces the first
application's interval sequence exactly. -/
theorem combine_intervals_idempotent (thr : ℚ) (l : List Interval)
    (hc : contiguousFrom 0 l) (hnn : ∀ i ∈ l, i.start ≤ i.stop) :
    combine_intervals thr (combine_intervals thr l) = combine_intervals thr l := by
  obtain ⟨hne, hc', halt, hd⟩ := combine_go_none_spec thr l 0 hc hnn le_rfl
  exact combine_intervals_fix thr _ hne hc' halt hd

/-- Witness for C3 at the Timeline `[0,1) silent, [1,3) audible` with
threshold `1/2`. -/
theorem combine_intervals_idempotent_witness :
    (contiguousFrom 0 ([⟨0, 1, true⟩, ⟨1, 3, false⟩] : List Interval) ∧
      ∀ i ∈ ([⟨0, 1, true⟩, ⟨1, 3, false⟩] : List Interval), i.start ≤ i.stop) ∧
    combine_intervals (1/2)
        (combine_intervals (1/2) [⟨0, 1, true⟩, ⟨1, 3, false⟩])
      = combine_intervals (1/2) [⟨0, 1, true⟩, ⟨1, 3, false⟩] :=
  ⟨⟨by simp [contiguousFrom], by intro i hi; fin_cases hi <;> norm_num⟩,
    combine_intervals_idempotent (1/2) [⟨0, 1, true⟩, ⟨1, 3, false⟩]
      (by simp [contiguousFrom]) (by intro i hi; fin_cases hi <;> norm_num)⟩

/-- Substring test, modelling Python's `pat in s`. -/
def containsSubstring (s pat : String) : Bool := decide (pat.data <:+: s.data)

/-- The possible outcomes of `RenderIntervalThread._render_interval` from
`libs/unsilence_fast/fast_render_interval_thread.py`. -/
inductive RenderOutcome
  | trueReturn
  | falseReturn
  | corruptedOSError (startTimestamp endTimestamp : ℚ)
  | invalidOptionsError
  | otherValueError
  deriving DecidableEq, Repr

/-- The `try/except FFmpegError` classification of
`RenderIntervalThread._render_interval`.  The transcoder invocation is
abstracted by its observable result: `none` for a successful `execute()`,
`some lines` for an `FFmpegError` whose `message.splitlines()` is `lines`.
If the last message line contains `"Conversion failed!"` the batch is
reported corrupted (`return False`) under `drop_corrupted_intervals`,
otherwise an `OSError` naming the group's start/end timestamps is raised;
failing that, a message containing `"Error initializing complex filter"`
raises `ValueError("Invalid render options")`; any other error message
raises a generic `ValueError`.  On success the method returns `True`. -/
def render_interval (drop_corrupted_intervals : Bool)
    (startTimestamp endTimestamp : ℚ) :
    Option (List String) → RenderOutcome
  | none => .trueReturn
  | some lines =>
    if containsSubstring (lines.getLastD "") "Conversion failed!" then
      if drop_corrupted_intervals then .falseReturn
      else .corruptedOSError startTimestamp endTimestamp
    else if lines.any
        (fun line => containsSubstring line "Error initializing complex filter") then
      .invalidOptionsError
    else .otherValueError

/-- C7: classification of a batch transcode failure.  On success the worker
returns `True`.  If the last line of the error message contains
`"Conversion failed!"` the worker returns `False` (the batch is recorded as
corrupted) when `drop_corrupted_intervals` is enabled, and otherwise raises
an `OSError` reporting the batch's start and end timestamps.  Failing that,
a message containing `"Error initializing complex filter"` raises the
distinct `ValueError("Invalid render options")`. -/
theorem render_interval_spec (drop : Bool) (s e : ℚ) (lines : List String) :
    (render_interval drop s e none = .trueReturn) ∧
    (containsSubstring (lines.getLastD "") "Conversion failed!" = true →
      (drop = true → render_interval drop s e (some lines) = .falseReturn) ∧
      (drop = false →
        render_interval drop s e (some lines) = .corruptedOSError s e)) ∧
    (containsSubstring (lines.getLastD "") "Conversion failed!" = false →
      lines.any
          (fun line => containsSubstring line "Error initializing complex filter")
        = true →
      render_interval drop s e (some lines) = .invalidOptionsError) := by
  refine ⟨rfl, fun h => ⟨fun hd => ?_, fun hd => ?_⟩, fun h ha => ?_⟩
  · subst hd
    simp only [render_interval]
    rw [if_pos h]
    simp
  · subst hd
    simp only [render_interval]
    rw [if_pos h]
    simp
  · simp only [render_interval]
    have hneg : ¬ (containsSubstring (lines.getLastD "") "Conversion failed!" = true) := by
      rw [h]
      simp
    rw [if_neg hneg, if_pos ha]

/-- Witness for C7 on a message whose last line reports a failed
conversion, with corrupted-interval dropping enabled. -/
theorem render_interval_spec_witness :
    (containsSubstring
        ((["frame blah", "Conversion failed!"] : List String).getLastD "")
        "Conversion failed!" = true ∧
      (true : Bool) = true) ∧
    render_interval true 3 7 (some ["frame blah", "Conversion failed!"])
      = .falseReturn :=
  ⟨⟨by decide, rfl⟩,
    ((render_interval_spec true 3 7 ["frame blah", "Conversion failed!"]).2.1
      (by decide)).1 rfl⟩

/-- `ThreadTask` from `libs/unsilence_fast/fast_render_interval_thread.py`,
restricted to the fields the ordering guarantee is about (`task_id` is the
original batch index, `output_file` the rendered batch's path). -/
structure ThreadTask where
  task_id : ℕ
  output_file : String
  deriving DecidableEq, Repr

/-- `sorted(completed_tasks, key=lambda x: x.task_id)` from
`FastMediaRenderer._run_tasks` (same expression in
`MediaRenderer.render`). -/
def sort_completed (l : List ThreadTask) : List ThreadTask :=
  l.mergeSort (fun a b => decide (a.task_id ≤ b.task_id))

/-- `[task.output_file for task in sorted(completed_tasks, ...)]`. -/
def completed_file_list (l : List ThreadTask) : List String :=
  (sort_completed l).map ThreadTask.output_file

theorem sort_completed_perm (l : List ThreadTask) : (sort_completed l).Perm l :=
  List.mergeSort_perm l _

theorem sort_completed_pairwise_le (l : List ThreadTask) :
    List.Pairwise (fun a b => a.task_id ≤ b.task_id) (sort_completed l) := by
  have h := @List.sorted_mergeSort ThreadTask
    (fun a b : ThreadTask => decide (a.task_id ≤ b.task_id))
    (fun a b c hab hbc => by
      simp only [decide_eq_true_eq] at *
      omega)
    (fun a b => by
      simp only [Bool.or_eq_true, decide_eq_true_eq]
      omega)
    l
  exact h.imp (fun hab => of_decide_eq_true hab)

theorem sort_completed_pairwise_lt (l : List ThreadTask)
    (hnd : (l.map ThreadTask.task_id).Nodup) :
    List.Pairwise (fun a b => a.task_id < b.task_id) (sort_completed l) := by
  have hnd' : ((sort_completed l).map ThreadTask.task_id).Nodup :=
    (((sort_completed_perm l).map ThreadTask.task_id).nodup_iff).mpr hnd
  have hne : List.Pairwise (fun a b : ThreadTask => a.task_id ≠ b.task_id)
      (sort_completed l) := List.pairwise_map.mp hnd'
  exact ((sort_completed_pairwise_le l).and hne).imp
    (fun hab => lt_of_le_of_ne hab.1 hab.2)

theorem sorted_tasks_unique (l1 l2 : List ThreadTask) (hp : l1.Perm l2)
    (h1 : List.Pairwise (fun a b => a.task_id < b.task_id) l1)
    (h2 : List.Pairwise (fun a b => a.task_id < b.task_id) l2) : l1 = l2 :=
  haveI : IsAntisymm ThreadTask (fun a b => a.task_id < b.task_id) :=
    ⟨fun _ _ hab hba => absurd (Nat.lt_trans hab hba) (Nat.lt_irrefl _)⟩
  List.eq_of_perm_of_sorted hp h1 h2

/-- C8: the list handed to concatenation does not depend on completion
order.  (1) Two completed-task lists that are permutations of each other
with pairwise-distinct `task_id`s sort to the same list.  (2) If the
completed list is any permutation of the tasks created with ids
`0, …, n-1` (batch index order, `output_file = f i`), the file list handed
to concatenation is exactly the outputs in original batch-index order. -/
theorem run_tasks_order_spec :
    (∀ l1 l2 : List ThreadTask, l1.Perm l2 →
      (l1.map ThreadTask.task_id).Nodup →
      sort_completed l1 = sort_completed l2) ∧
    (∀ (n : ℕ) (f : ℕ → String) (l : List ThreadTask),
      l.Perm ((List.range n).map (fun i => ⟨i, f i⟩)) →
      completed_file_list l = (List.range n).map f) := by
  have part1 : ∀ l1 l2 : List ThreadTask, l1.Perm l2 →
      (l1.map ThreadTask.task_id).Nodup →
      sort_completed l1 = sort_completed l2 := by
    intro l1 l2 h hnd
    have hnd2 : (l2.map ThreadTask.task_id).Nodup :=
      ((h.map ThreadTask.task_id).nodup_iff).mp hnd
    exact sorted_tasks_unique _ _
      ((sort_completed_perm l1).trans (h.trans (sort_completed_perm l2).symm))
      (sort_completed_pairwise_lt l1 hnd) (sort_completed_pairwise_lt l2 hnd2)
  refine ⟨part1, ?_⟩
  intro n f l h
  have htasks_id : (((List.range n).map (fun i => (⟨i, f i⟩ : ThreadTask))).map
      ThreadTask.task_id) = List.range n := by
    simp [List.map_map, Function.comp_def]
  have hnd : (l.map ThreadTask.task_id).Nodup := by
    rw [((h.map ThreadTask.task_id).nodup_iff)]
    rw [htasks_id]
    exact List.nodup_range n
  have hsorted_tasks : List.Pairwise (fun a b => a.task_id < b.task_id)
      ((List.range n).map (fun i => (⟨i, f i⟩ : ThreadTask))) := by
    refine List.pairwise_map.mpr ?_
    exact List.pairwise_lt_range n
  have hfix : sort_completed ((List.range n).map (fun i => (⟨i, f i⟩ : ThreadTask)))
      = (List.range n).map (fun i => (⟨i, f i⟩ : ThreadTask)) :=
    sorted_tasks_unique _ _ (sort_completed_perm _)
      (sort_completed_pairwise_lt _ (by rw [htasks_id]; exact List.nodup_range n))
      hsorted_tasks
  have heq := part1 l ((List.range n).map (fun i => (⟨i, f i⟩ : ThreadTask))) h hnd
  unfold completed_file_list
  rw [heq, hfix]
  simp [List.map_map, Function.comp_def]

/-- Witness for C8 on the two-task completed lists `[⟨1,"b"⟩, ⟨0,"a"⟩]`
(completion order reversed) and the in-order tasks of a two-batch plan. -/
theorem run_tasks_order_spec_witness :
    (([⟨1, "b"⟩, ⟨0, "a"⟩] : List ThreadTask).Perm [⟨0, "a"⟩, ⟨1, "b"⟩] ∧
      (([⟨1, "b"⟩, ⟨0, "a"⟩] : List ThreadTask).map ThreadTask.task_id).Nodup ∧
      sort_completed [⟨1, "b"⟩, ⟨0, "a"⟩] = sort_completed [⟨0, "a"⟩, ⟨1, "b"⟩]) ∧
    (([⟨1, "b"⟩, ⟨0, "a"⟩] : List ThreadTask).Perm
        ((List.range 2).map (fun i => ⟨i, if i = 0 then "a" else "b"⟩)) ∧
      completed_file_list [⟨1, "b"⟩, ⟨0, "a"⟩]
        = (List.range 2).map (fun i => if i = 0 then "a" else "b")) :=
  ⟨⟨by decide, by decide,
      run_tasks_order_spec.1 [⟨1, "b"⟩, ⟨0, "a"⟩] [⟨0, "a"⟩, ⟨1, "b"⟩]
        (by decide) (by decide)⟩,
    by decide,
    run_tasks_order_spec.2 2 (fun i => if i = 0 then "a" else "b")
      [⟨1, "b"⟩, ⟨0, "a"⟩] (by decide)⟩

/-- A `silencedetect` stderr event from `detect_silence` in
`libs/unsilence/detect_silence/detect_silence.py`: `silence_start` or
`silence_end` with its timestamp. -/
inductive SilenceEvent
  | silence_start (t : ℚ)
  | silence_end (t : ℚ)
  deriving DecidableEq, Repr

/-- The event loop of `detect_silence`: track the current interval (its
start `cs` and class `sil`; its in-progress `end` is overwritten before
every flush, so it is not carried).  A `silence_start` at time `t` flushes
the current interval as `[cs, t)` unless `cs == t` (in which case the
current interval is discarded) and opens a silent interval at `t`; a
`silence_end` at `t` always flushes `[cs, t)` and opens an audible interval
at `t`.  At stream end the open interval is closed at the media duration
`D` and appended. -/
def detect_silence_go (D : ℚ) : ℚ → Bool → List SilenceEvent → List Interval
  | cs, sil, [] => [⟨cs, D, sil⟩]
  | cs, sil, .silence_start t :: rest =>
    if cs ≠ t then ⟨cs, t, sil⟩ :: detect_silence_go D t true rest
    else detect_silence_go D t true rest
  | cs, sil, .silence_end t :: rest => ⟨cs, t, sil⟩ :: detect_silence_go D t false rest

/-- `detect_silence`: the current interval starts as
`Interval(start=0, end=0, is_silent=False)`. -/
def detect_silence (D : ℚ) (events : List SilenceEvent) : List Interval :=
  detect_silence_go D 0 false events

/-- The converting loop of `detect_speech` from
`tools/video_processing/vad/vad_unsilence.py`: for each speech timestamp
`(s, e)` (seconds) close the pending no-speech interval at `s`, emit the
speech interval `[s, e)`, and open a new no-speech interval at `e`; after
the loop the pending no-speech interval is emitted (closed at the media
duration) only when its start is strictly below the media duration. -/
def detect_speech_go (D : ℚ) : ℚ → List (ℚ × ℚ) → List Interval
  | nsStart, [] => if nsStart < D then [⟨nsStart, D, true⟩] else []
  | nsStart, (s, e) :: rest =>
    ⟨nsStart, s, true⟩ :: ⟨s, e, false⟩ :: detect_speech_go D e rest

/-- `detect_speech`: the pending no-speech interval starts at `0`. -/
def detect_speech (D : ℚ) (speech : List (ℚ × ℚ)) : List Interval :=
  detect_speech_go D 0 speech

/-- A well-formed silence event stream: alternating `silence_start` /
`silence_end` events (the flag says whether a start event is expected
next), at nondecreasing timestamps within `[prev, D]`. -/
def wellFormedEvents (D : ℚ) : ℚ → Bool → List SilenceEvent → Prop
  | _, _, [] => True
  | prev, true, .silence_start t :: rest =>
    prev ≤ t ∧ t ≤ D ∧ wellFormedEvents D t false rest
  | _, true, .silence_end _ :: _ => False
  | prev, false, .silence_end t :: rest =>
    prev ≤ t ∧ t ≤ D ∧ wellFormedEvents D t true rest
  | _, false, .silence_start _ :: _ => False

/-- A well-formed speech-timestamp list: sorted, non-overlapping ranges
inside `[prev, D]`. -/
def wellFormedSpeech (D : ℚ) : ℚ → List (ℚ × ℚ) → Prop
  | _, [] => True
  | prev, (s, e) :: rest => prev ≤ s ∧ s ≤ e ∧ e ≤ D ∧ wellFormedSpeech D e rest

/-- The `end` of the last interval, `a` for the empty list. -/
def finalStop (a : ℚ) (l : List Interval) : ℚ := (l.map Interval.stop).getLastD a

/-- Sum of the interval durations. -/
def totalDuration (l : List Interval) : ℚ := (l.map Interval.duration).sum

/-- Durations of a contiguous interval list telescope. -/
theorem totalDuration_of_contiguous :
    ∀ (l : List Interval) (a : ℚ), contiguousFrom a l →
      totalDuration l = finalStop a l - a := by
  intro l
  induction l with
  | nil => intro a _; simp [totalDuration, finalStop]
  | cons i rest ih =>
    intro a hc
    have h2 := ih i.stop hc.2
    have h1 : i.start = a := hc.1
    simp only [totalDuration, finalStop, List.map_cons, List.sum_cons,
      List.getLastD_cons, Interval.duration] at h2 ⊢
    rw [h2, h1]
    ring

/-- The silence-detection loop always produces a non-empty contiguous
sequence from the current start to the media duration. -/
theorem detect_silence_go_covers (D : ℚ) :
    ∀ (events : List SilenceEvent) (cs : ℚ) (sil : Bool),
      detect_silence_go D cs sil events ≠ [] ∧
      contiguousFrom cs (detect_silence_go D cs sil events) ∧
      finalStop cs (detect_silence_go D cs sil events) = D := by
  intro events
  induction events with
  | nil =>
    intro cs sil
    exact ⟨by simp [detect_silence_go], ⟨rfl, trivial⟩, by simp [detect_silence_go, finalStop]⟩
  | cons ev rest ih =>
    intro cs sil
    cases ev with
    | silence_start t =>
      by_cases hne : cs ≠ t
      · simp only [detect_silence_go, if_pos hne]
        obtain ⟨hni, hci, hfi⟩ := ih t true
        refine ⟨List.cons_ne_nil _ _, ⟨rfl, hci⟩, ?_⟩
        simp only [finalStop, List.map_cons, List.getLastD_cons] at hfi ⊢
        exact hfi
      · simp only [detect_silence_go, if_neg hne]
        push_neg at hne
        subst hne
        exact ih cs true
    | silence_end t =>
      simp only [detect_silence_go]
      obtain ⟨hni, hci, hfi⟩ := ih t false
      refine ⟨List.cons_ne_nil _ _, ⟨rfl, hci⟩, ?_⟩
      simp only [finalStop, List.map_cons, List.getLastD_cons] at hfi ⊢
      exact hfi

/-- The speech-to-timeline conversion produces a contiguous sequence from
the pending start to the media duration; it is empty only in the degenerate
case `nsStart = D` with no speech ranges. -/
theorem detect_speech_go_covers (D : ℚ) :
    ∀ (speech : List (ℚ × ℚ)) (ns : ℚ),
      wellFormedSpeech D ns speech → ns ≤ D →
      ((detect_speech_go D ns speech ≠ [] ∨ (ns = D ∧ speech = [])) ∧
        contiguousFrom ns (detect_speech_go D ns speech) ∧
        finalStop ns (detect_speech_go D ns speech) = D) := by
  intro speech
  induction speech with
  | nil =>
    intro ns _ hle
    by_cases hlt : ns < D
    · simp only [detect_speech_go, if_pos hlt]
      exact ⟨Or.inl (List.cons_ne_nil _ _), ⟨rfl, trivial⟩, by simp [finalStop]⟩
    · simp only [detect_speech_go, if_neg hlt]
      have : ns = D := le_antisymm hle (not_lt.mp hlt)
      exact ⟨Or.inr ⟨this, by trivial⟩, trivial, by simp [finalStop, this]⟩
  | cons se rest ih =>
    intro ns hwf hle
    obtain ⟨s, e⟩ := se
    obtain ⟨h1, h2, h3, hwf'⟩ := hwf
    simp only [detect_speech_go]
    obtain ⟨hni, hci, hfi⟩ := ih e hwf' h3
    refine ⟨Or.inl (List.cons_ne_nil _ _), ⟨rfl, rfl, hci⟩, ?_⟩
    simp only [finalStop, List.map_cons, List.getLastD_cons] at hfi ⊢
    exact hfi

/-- C9: both detectors produce full-coverage Timelines.  For every
well-formed silence event stream and every well-formed speech-timestamp
list over a media of positive duration `D`, the produced interval list is
non-empty, contiguous starting at `0` (so its first interval starts at `0`
and each `end` equals the next `start`), its last interval ends at `D`, and
the interval durations sum to `D`. -/
theorem detectors_full_coverage (D : ℚ) (events : List SilenceEvent)
    (speech : List (ℚ × ℚ)) (hwf_e : wellFormedEvents D 0 true events)
    (hwf_s : wellFormedSpeech D 0 speech) (hD : 0 < D) :
    (detect_silence D events ≠ [] ∧
      contiguousFrom 0 (detect_silence D events) ∧
      finalStop 0 (detect_silence D events) = D ∧
      totalDuration (detect_silence D events) = D) ∧
    (detect_speech D speech ≠ [] ∧
      contiguousFrom 0 (detect_speech D speech) ∧
      finalStop 0 (detect_speech D speech) = D ∧
      totalDuration (detect_speech D speech) = D) := by
  obtain ⟨hn1, hc1, hf1⟩ := detect_silence_go_covers D events 0 false
  obtain ⟨hn2, hc2, hf2⟩ := detect_speech_go_covers D speech 0 hwf_s hD.le
  have ht1 : totalDuration (detect_silence D events) = D := by
    show totalDuration (detect_silence_go D 0 false events) = D
    rw [totalDuration_of_contiguous _ 0 hc1, hf1]
    ring
  have ht2 : totalDuration (detect_speech D speech) = D := by
    show totalDuration (detect_speech_go D 0 speech) = D
    rw [totalDuration_of_contiguous _ 0 hc2, hf2]
    ring
  refine ⟨⟨hn1, hc1, hf1, ht1⟩, ⟨?_, hc2, hf2, ht2⟩⟩
  rcases hn2 with h | ⟨h0, _⟩
  · exact h
  · exact absurd h0.symm (ne_of_gt hD)

/-- Witness for C9: a 10-second media with one silent region `[2,4)` and
one speech range `[1,3)`. -/
theorem detectors_full_coverage_witness :
    (wellFormedEvents 10 0 true [.silence_start 2, .silence_end 4] ∧
      wellFormedSpeech 10 0 [(1, 3)] ∧ (0 : ℚ) < 10) ∧
    (detect_silence 10 [.silence_start 2, .silence_end 4] ≠ [] ∧
      contiguousFrom 0 (detect_silence 10 [.silence_start 2, .silence_end 4]) ∧
      finalStop 0 (detect_silence 10 [.silence_start 2, .silence_end 4]) = 10 ∧
      totalDuration (detect_silence 10 [.silence_start 2, .silence_end 4]) = 10) ∧
    (detect_speech 10 [(1, 3)] ≠ [] ∧
      contiguousFrom 0 (detect_speech 10 [(1, 3)]) ∧
      finalStop 0 (detect_speech 10 [(1, 3)]) = 10 ∧
      totalDuration (detect_speech 10 [(1, 3)]) = 10) :=
  have hwf_e : wellFormedEvents 10 0 true [.silence_start 2, .silence_end 4] := by
    norm_num [wellFormedEvents]
  have hwf_s : wellFormedSpeech 10 0 [(1, 3)] := by
    norm_num [wellFormedSpeech]
  have hD : (0 : ℚ) < 10 := by norm_num
  ⟨⟨hwf_e, hwf_s, hD⟩,
    (detectors_full_coverage 10 [.silence_start 2, .silence_end 4] [(1, 3)]
      hwf_e hwf_s hD).1,
    (detectors_full_coverage 10 [.silence_start 2, .silence_end 4] [(1, 3)]
      hwf_e hwf_s hD).2⟩

/-- The error classes of the first-generation `MediaRenderer.render`:
`FileNotFoundError` for a missing input, `UserWarning` for the
unconditional raise inside `remove_short_intervals_from_start`. -/
inductive RenderError
  | fileNotFound
  | userWarning (msg : String)
  deriving DecidableEq, Repr

/-- `Intervals.remove_short_intervals_from_start` from
`libs/unsilence/intervals/intervals.py`: the body's first executable
statement is `raise UserWarning("Do not use it")`, so the loop after it
(dropping leading intervals shorter than 0.5 seconds after speedup) is dead
code and the method never returns a value. -/
def remove_short_intervals_from_start (_s : Intervals)
    (_audible_speed _silent_speed : ℚ) : Except RenderError Intervals :=
  .error (.userWarning "Do not use it")

/-- The prefix of the first-generation `MediaRenderer.render` from
`libs/unsilence/render_media/media_renderer.py` up to the point where
worker threads would be spawned: check that the input file exists, then
call `remove_short_intervals_from_start` on the intervals; reaching the
worker-spawning code is modelled by returning `.ok ()`. -/
def media_renderer_render (input_file_exists : Bool) (intervals : Intervals)
    (audible_speed silent_speed : ℚ) : Except RenderError Unit :=
  if input_file_exists = false then .error .fileNotFound
  else
    match remove_short_intervals_from_start intervals audible_speed silent_speed with
    | .error e => .error e
    | .ok _ => .ok ()

/-- C10: for every existing input file and every `Intervals` value, the
first-generation `MediaRenderer.render` raises
`UserWarning("Do not use it")` before spawning any worker, because it
unconditionally calls `remove_short_intervals_from_start`, which raises on
every call; in particular it never reaches the worker-spawning code. -/
theorem media_renderer_render_always_raises (intervals : Intervals)
    (audible_speed silent_speed : ℚ) :
    media_renderer_render true intervals audible_speed silent_speed
        = .error (.userWarning "Do not use it") ∧
    ∀ u, media_renderer_render true intervals audible_speed silent_speed
        ≠ .ok u :=
  ⟨rfl, fun _ h => Except.noConfusion h⟩

end AntilectorSpec
